import Mathlib

/-
Verification of the VA_space progressive loading / transformation / caching
pipeline.  JavaScript numbers are modelled as rationals (ℚ), strings as Lean
strings, and `T | null` values as `Option`.  Stateful classes are modelled as
explicit state-passing functions; the event-loop behaviour of the worker
manager is modelled as a step function over its pending-request map.
-/

/-- Merge strategies of a normalized emotion record
(`'both_weighted' | 'warriner_only' | 'nrc_only' | 'unknown'`). -/
inductive MergeStrategy : Type
  | both_weighted
  | warriner_only
  | nrc_only
  | unknown
deriving DecidableEq

/-- `IRawEmotionData`: the loosely-typed input unit of one chunk file.
Optional fields are `Option`; `none` models an absent (`undefined`) field. -/
structure IRawEmotionData : Type where
  term : String
  valence : ℚ
  arousal : ℚ
  dominance : Option ℚ
  confidence : Option ℚ
  merge_strategy : Option String
  is_multiword : Option Bool
  source_warriner : Option Bool
  source_nrc : Option Bool
deriving DecidableEq

/-- The `metadata` sub-object attached by the loaders to a normalized record. -/
structure IEmotionMetadata : Type where
  sourceWarriner : Option Bool
  sourceNRC : Option Bool
  rawData : IRawEmotionData
deriving DecidableEq

/-- `IEmotionData`: a normalized emotion record. -/
structure IEmotionData : Type where
  term : String
  valence : ℚ
  arousal : ℚ
  dominance : Option ℚ
  confidence : ℚ
  mergeStrategy : MergeStrategy
  isMultiword : Bool
  metadata : IEmotionMetadata
deriving DecidableEq

/-- `IRenderablePoint`: a normalized record plus derived screen attributes. -/
structure IRenderablePoint : Type where
  term : String
  x : ℚ
  y : ℚ
  valence : ℚ
  arousal : ℚ
  confidence : ℚ
  mergeStrategy : MergeStrategy
  isMultiword : Bool
  color : String
  size : ℚ
deriving DecidableEq

/-! Main-thread constants (`colors.const.ts`, `visualization.const`). -/

namespace CONFIDENCE_COLORS

def HIGH : String := "#7CB342"

def MEDIUM : String := "#FF8A65"

def LOW : String := "#E57373"

end CONFIDENCE_COLORS

namespace CONFIDENCE_THRESHOLDS

def HIGH : ℚ := 0.8

def MEDIUM : ℚ := 0.7

end CONFIDENCE_THRESHOLDS

namespace POINT_SIZE

def DEFAULT : ℚ := 3

def MULTIWORD : ℚ := 4

end POINT_SIZE

/-- `getConfidenceColor` of `colors.const.ts`: three-tier lookup by
confidence threshold. -/
def getConfidenceColor (confidence : ℚ) : String :=
  if confidence ≥ CONFIDENCE_THRESHOLDS.HIGH then CONFIDENCE_COLORS.HIGH
  else if confidence ≥ CONFIDENCE_THRESHOLDS.MEDIUM then CONFIDENCE_COLORS.MEDIUM
  else CONFIDENCE_COLORS.LOW

namespace EmotionDataTransformer

/-- `EmotionDataTransformer.transformSingleEmotion`: one record to one
renderable point, on the main thread (synchronous fallback path). -/
def transformSingleEmotion (emotion : IEmotionData)
    (_canvasWidth _canvasHeight : ℚ) : IRenderablePoint :=
  { term := emotion.term
    x := emotion.valence
    y := emotion.arousal
    valence := emotion.valence
    arousal := emotion.arousal
    confidence := emotion.confidence
    mergeStrategy := emotion.mergeStrategy
    isMultiword := emotion.isMultiword
    color := getConfidenceColor emotion.confidence
    size := if emotion.isMultiword then POINT_SIZE.MULTIWORD else POINT_SIZE.DEFAULT }

/-- `EmotionDataTransformer.transformToRenderable`: maps every record through
`transformSingleEmotion`. -/
def transformToRenderable (emotions : List IEmotionData)
    (canvasWidth canvasHeight : ℚ) : List IRenderablePoint :=
  emotions.map fun emotion => transformSingleEmotion emotion canvasWidth canvasHeight

end EmotionDataTransformer

namespace DataWorker

/-- The worker-local `getConfidenceColor` of `dataWorker.js` (its own copy of
the colour table). -/
def getConfidenceColor (confidence : ℚ) : String :=
  if confidence ≥ 0.8 then "#10b981"
  else if confidence ≥ 0.7 then "#f59e0b"
  else "#ef4444"

namespace POINT_SIZE

def DEFAULT : ℚ := 2

def MULTIWORD : ℚ := 3

end POINT_SIZE

/-- The worker-side `transformEmotionData` of `dataWorker.js`. -/
def transformEmotionData (emotions : List IEmotionData)
    (_canvasWidth _canvasHeight : ℚ) : List IRenderablePoint :=
  emotions.map fun emotion =>
    { term := emotion.term
      x := emotion.valence
      y := emotion.arousal
      valence := emotion.valence
      arousal := emotion.arousal
      confidence := emotion.confidence
      mergeStrategy := emotion.mergeStrategy
      isMultiword := emotion.isMultiword
      color := getConfidenceColor emotion.confidence
      size := if emotion.isMultiword then POINT_SIZE.MULTIWORD else POINT_SIZE.DEFAULT }

end DataWorker

/-- A concrete normalized record used to compare the two transform paths. -/
def sampleEmotion : IEmotionData :=
  { term := "joy"
    valence := 0.5
    arousal := 0.3
    dominance := none
    confidence := 0.9
    mergeStrategy := MergeStrategy.unknown
    isMultiword := false
    metadata :=
      { sourceWarriner := none
        sourceNRC := none
        rawData :=
          { term := "joy", valence := 0.5, arousal := 0.3, dominance := none
            confidence := some 0.9, merge_strategy := none, is_multiword := none
            source_warriner := none, source_nrc := none } } }

/-- C1: the worker transform and the synchronous fallback transform are NOT
identical: on a record with confidence 0.9 the worker path yields colour
"#10b981" and size 2 while the fallback path yields colour "#7CB342" and
size 3, so the two RenderablePoint arrays differ. -/
theorem c1_transform_paths_differ :
    (DataWorker.transformEmotionData [sampleEmotion] 800 600).map IRenderablePoint.color
      = ["#10b981"] ∧
    (EmotionDataTransformer.transformToRenderable [sampleEmotion] 800 600).map
      IRenderablePoint.color = ["#7CB342"] ∧
    (DataWorker.transformEmotionData [sampleEmotion] 800 600).map IRenderablePoint.size
      = [2] ∧
    (EmotionDataTransformer.transformToRenderable [sampleEmotion] 800 600).map
      IRenderablePoint.size = [3] ∧
    DataWorker.transformEmotionData [sampleEmotion] 800 600
      ≠ EmotionDataTransformer.transformToRenderable [sampleEmotion] 800 600 := by
  have h1 : DataWorker.getConfidenceColor (0.9 : ℚ) = "#10b981" := by
    simp only [DataWorker.getConfidenceColor]
    rw [if_pos (show (0.9 : ℚ) ≥ 0.8 by norm_num)]
  have h2 : getConfidenceColor (0.9 : ℚ) = "#7CB342" := by
    simp only [getConfidenceColor, CONFIDENCE_THRESHOLDS.HIGH, CONFIDENCE_COLORS.HIGH]
    rw [if_pos (show (0.9 : ℚ) ≥ 0.8 by norm_num)]
  have hw : DataWorker.transformEmotionData [sampleEmotion] 800 600 =
      [⟨"joy", 0.5, 0.3, 0.5, 0.3, 0.9, MergeStrategy.unknown, false, "#10b981", 2⟩] := by
    simp [DataWorker.transformEmotionData, sampleEmotion, h1, DataWorker.POINT_SIZE.DEFAULT]
  have hf : EmotionDataTransformer.transformToRenderable [sampleEmotion] 800 600 =
      [⟨"joy", 0.5, 0.3, 0.5, 0.3, 0.9, MergeStrategy.unknown, false, "#7CB342", 3⟩] := by
    simp [EmotionDataTransformer.transformToRenderable,
      EmotionDataTransformer.transformSingleEmotion, sampleEmotion, h2, POINT_SIZE.DEFAULT]
  refine ⟨by rw [hw]; rfl, by rw [hf]; rfl, by rw [hw]; rfl, by rw [hf]; rfl, ?_⟩
  rw [hw, hf]
  simp [IRenderablePoint.mk.injEq]

namespace ChunkedDataLoader

/-- `ChunkedDataLoader.MAX_CONCURRENT_REQUESTS` (fixed batch width). -/
def MAX_CONCURRENT_REQUESTS : ℕ := 8

/-- `ChunkedDataLoader.normalizeMergeStrategy`: exact-string switch with
default `'unknown'`. -/
def normalizeMergeStrategy : Option String → MergeStrategy
  | some "both_weighted" => MergeStrategy.both_weighted
  | some "warriner_only" => MergeStrategy.warriner_only
  | some "nrc_only" => MergeStrategy.nrc_only
  | _ => MergeStrategy.unknown

/-- `ChunkedDataLoader.normalizeEmotionData`: the per-record normalizer of the
loading pipeline.  It copies `term`, `valence`, `arousal` verbatim, defaults
`confidence` to 0.5 and `is_multiword` to `false` when absent. -/
def normalizeEmotionData (raw : IRawEmotionData) : IEmotionData :=
  { term := raw.term
    valence := raw.valence
    arousal := raw.arousal
    dominance := raw.dominance
    confidence := raw.confidence.getD 0.5
    mergeStrategy := normalizeMergeStrategy raw.merge_strategy
    isMultiword := raw.is_multiword.getD false
    metadata :=
      { sourceWarriner := raw.source_warriner
        sourceNRC := raw.source_nrc
        rawData := raw } }

end ChunkedDataLoader

/-- The raw record of the spec's Scenario B:
`{term:"JOY ", valence:5, arousal:-5, confidence:2}`. -/
def joyRaw : IRawEmotionData :=
  { term := "JOY ", valence := 5, arousal := -5, dominance := none
    confidence := some 2, merge_strategy := none, is_multiword := none
    source_warriner := none, source_nrc := none }

/-- C2 counterexample: the loading pipeline's normalizer does not clamp or
sanitize.  On the Scenario B record it keeps term "JOY ", valence 5,
arousal -5 and confidence 2, refuting the claimed output
`{term:"joy", valence:1, arousal:-1, confidence:1}`. -/
theorem c2_normalizer_no_clamp_counterexample :
    (ChunkedDataLoader.normalizeEmotionData joyRaw).term = "JOY " ∧
    (ChunkedDataLoader.normalizeEmotionData joyRaw).valence = 5 ∧
    (ChunkedDataLoader.normalizeEmotionData joyRaw).arousal = -5 ∧
    (ChunkedDataLoader.normalizeEmotionData joyRaw).confidence = 2 ∧
    ¬ ((ChunkedDataLoader.normalizeEmotionData joyRaw).term = "joy" ∧
        (ChunkedDataLoader.normalizeEmotionData joyRaw).valence = 1 ∧
        (ChunkedDataLoader.normalizeEmotionData joyRaw).arousal = -1 ∧
        (ChunkedDataLoader.normalizeEmotionData joyRaw).confidence = 1) := by
  refine ⟨rfl, rfl, rfl, rfl, ?_⟩
  intro h
  exact absurd h.1 (by simp [ChunkedDataLoader.normalizeEmotionData, joyRaw])

/-- C2 amended: the loading pipeline's normalizer passes `term`, `valence` and
`arousal` through unchanged, defaults `confidence` to 0.5 only when absent and
`isMultiword` to `false`; the Scenario B record normalizes to
`{term:"JOY ", valence:5, arousal:-5, confidence:2, mergeStrategy:"unknown",
isMultiword:false}`. -/
theorem c2_normalizer_passthrough :
    (∀ raw : IRawEmotionData,
      (ChunkedDataLoader.normalizeEmotionData raw).term = raw.term ∧
      (ChunkedDataLoader.normalizeEmotionData raw).valence = raw.valence ∧
      (ChunkedDataLoader.normalizeEmotionData raw).arousal = raw.arousal ∧
      (ChunkedDataLoader.normalizeEmotionData raw).confidence
        = raw.confidence.getD 0.5 ∧
      (ChunkedDataLoader.normalizeEmotionData raw).isMultiword
        = raw.is_multiword.getD false) ∧
    ChunkedDataLoader.normalizeEmotionData joyRaw =
      { term := "JOY ", valence := 5, arousal := -5, dominance := none
        confidence := 2, mergeStrategy := MergeStrategy.unknown
        isMultiword := false
        metadata := { sourceWarriner := none, sourceNRC := none, rawData := joyRaw } } := by
  exact ⟨fun raw => ⟨rfl, rfl, rfl, rfl, rfl⟩, rfl⟩

/-! The worker-side statistics (`calculateStatistics` of `dataWorker.js`). -/

/-- A `{min, max}` range object. -/
structure StatRange : Type where
  min : ℚ
  max : ℚ
deriving DecidableEq

/-- The statistics object returned by the worker's `calculateStatistics`. -/
structure IWorkerStatistics : Type where
  totalCount : ℕ
  valenceRange : StatRange
  arousalRange : StatRange
  confidenceRange : StatRange
  averageConfidence : ℚ
deriving DecidableEq

namespace DataWorker

/-- `Math.min(...values)` over a spread of a nonempty array.  (The [] case is
never reached by `calculateStatistics`, which guards on emptiness; JS would
yield `Infinity` there.) -/
def jsMin : List ℚ → ℚ
  | [] => 0
  | x :: xs => xs.foldl min x

/-- `Math.max(...values)` over a spread of a nonempty array (never reached on
[] by `calculateStatistics`; JS would yield `-Infinity` there). -/
def jsMax : List ℚ → ℚ
  | [] => 0
  | x :: xs => xs.foldl max x

/-- `values.reduce((sum, val) => sum + val, 0)`. -/
def jsSum (values : List ℚ) : ℚ := values.foldl (· + ·) 0

/-- The worker-side `calculateStatistics`: the empty case is guarded before
any min/max or average computation. -/
def calculateStatistics (emotions : List IEmotionData) : IWorkerStatistics :=
  if emotions.length = 0 then
    { totalCount := 0
      valenceRange := { min := 0, max := 0 }
      arousalRange := { min := 0, max := 0 }
      confidenceRange := { min := 0, max := 0 }
      averageConfidence := 0 }
  else
    let valenceValues := emotions.map IEmotionData.valence
    let arousalValues := emotions.map IEmotionData.arousal
    let confidenceValues := emotions.map IEmotionData.confidence
    { totalCount := emotions.length
      valenceRange := { min := jsMin valenceValues, max := jsMax valenceValues }
      arousalRange := { min := jsMin arousalValues, max := jsMax arousalValues }
      confidenceRange := { min := jsMin confidenceValues, max := jsMax confidenceValues }
      averageConfidence := jsSum confidenceValues / confidenceValues.length }

end DataWorker

/-- C10: the worker's `calculateStatistics` on an empty record array returns
the fully-defined zero statistics object; the empty guard fires before any
min/max or average is computed. -/
theorem c10_empty_statistics :
    DataWorker.calculateStatistics [] =
      { totalCount := 0
        valenceRange := { min := 0, max := 0 }
        arousalRange := { min := 0, max := 0 }
        confidenceRange := { min := 0, max := 0 }
        averageConfidence := 0 } := rfl

namespace ChunkedDataLoader

/-- The outer `for (let i = 0; i < totalChunks; i += MAX_CONCURRENT_REQUESTS)`
loop of `loadDataProgressively`: the batch issued at start index `i` holds the
chunk ids `i, i+1, ...` up to the batch width or the end of the range
(the inner loop condition `j < MAX_CONCURRENT_REQUESTS && i + j < totalChunks`). -/
def chunkBatches (totalChunks : ℕ) (i : ℕ) : List (List ℕ) :=
  if _h : i < totalChunks then
    List.range' i (min MAX_CONCURRENT_REQUESTS (totalChunks - i)) ::
      chunkBatches totalChunks (i + MAX_CONCURRENT_REQUESTS)
  else []
termination_by totalChunks - i
decreasing_by
  simp only [MAX_CONCURRENT_REQUESTS]
  omega

/-- The `chunks.forEach` body of `loadDataProgressively`: for each chunk of a
batch, increment `loadedChunks` and emit one
`((loadedChunks / totalChunks) * 100, chunk)` progress event. -/
def emitChunkEvents (totalChunks : ℕ) (chunkOf : ℕ → List IEmotionData)
    (loaded : ℕ) : List ℕ → List (ℚ × List IEmotionData)
  | [] => []
  | id :: rest =>
      (((loaded : ℚ) + 1) / (totalChunks : ℚ) * 100, chunkOf id) ::
        emitChunkEvents totalChunks chunkOf (loaded + 1) rest

/-- Processing the sequence of batches: each batch's fetches all settle
(`Promise.all`), then its events are emitted, then the next batch starts. -/
def loadBatches (totalChunks : ℕ) (chunkOf : ℕ → List IEmotionData)
    (loaded : ℕ) : List (List ℕ) → List (ℚ × List IEmotionData)
  | [] => []
  | b :: bs =>
      emitChunkEvents totalChunks chunkOf loaded b ++
        loadBatches totalChunks chunkOf (loaded + b.length) bs

/-- `ChunkedDataLoader.loadChunk`: fetch one chunk and normalize every raw
record through `normalizeEmotionData`.  The remote chunk contents are the
oracle `rawChunks`. -/
def loadChunk (rawChunks : ℕ → List IRawEmotionData) (chunkId : ℕ) :
    List IEmotionData :=
  (rawChunks chunkId).map normalizeEmotionData

/-- `ChunkedDataLoader.loadDataProgressively` on a successful run: metadata
gives `totalChunks`; the chunk ids are partitioned into batches and the
progress events are emitted batch by batch in chunk-index order. -/
def loadDataProgressively (totalChunks : ℕ)
    (rawChunks : ℕ → List IRawEmotionData) : List (ℚ × List IEmotionData) :=
  loadBatches totalChunks (loadChunk rawChunks) 0 (chunkBatches totalChunks 0)

/-- `ChunkedDataLoader.loadData`: accumulates every streamed chunk. -/
def loadData (totalChunks : ℕ) (rawChunks : ℕ → List IRawEmotionData) :
    List IEmotionData :=
  ((loadDataProgressively totalChunks rawChunks).map Prod.snd).flatten

theorem emitChunkEvents_append (N : ℕ) (c : ℕ → List IEmotionData)
    (xs ys : List ℕ) (loaded : ℕ) :
    emitChunkEvents N c loaded (xs ++ ys) =
      emitChunkEvents N c loaded xs ++ emitChunkEvents N c (loaded + xs.length) ys := by
  induction xs generalizing loaded with
  | nil => simp [emitChunkEvents]
  | cons x xs ih =>
      have h : loaded + 1 + xs.length = loaded + (xs.length + 1) := by omega
      simp only [List.cons_append, emitChunkEvents, List.append_eq, ih,
        List.length_cons, h]

theorem loadBatches_eq_emit (N : ℕ) (c : ℕ → List IEmotionData)
    (bs : List (List ℕ)) (loaded : ℕ) :
    loadBatches N c loaded bs = emitChunkEvents N c loaded bs.flatten := by
  induction bs generalizing loaded with
  | nil => simp [loadBatches, emitChunkEvents]
  | cons b bs ih => simp [loadBatches, List.flatten, emitChunkEvents_append, ih]

theorem chunkBatches_join (N : ℕ) :
    ∀ k i, N - i = k → (chunkBatches N i).flatten = List.range' i (N - i) := by
  intro k
  induction k using Nat.strong_induction_on with
  | _ k ih =>
      intro i hk
      rw [chunkBatches]
      by_cases h : i < N
      · rw [dif_pos h]
        have hrec : (chunkBatches N (i + MAX_CONCURRENT_REQUESTS)).flatten =
            List.range' (i + MAX_CONCURRENT_REQUESTS)
              (N - (i + MAX_CONCURRENT_REQUESTS)) := by
          refine ih (N - (i + MAX_CONCURRENT_REQUESTS)) ?_ _ rfl
          simp only [MAX_CONCURRENT_REQUESTS] at *
          omega
        simp only [List.flatten_cons, hrec]
        rcases le_or_lt (N - i) MAX_CONCURRENT_REQUESTS with hle | hlt
        · have h1 : min MAX_CONCURRENT_REQUESTS (N - i) = N - i := by omega
          have h2 : N - (i + MAX_CONCURRENT_REQUESTS) = 0 := by
            simp only [MAX_CONCURRENT_REQUESTS] at *
            omega
          simp [h1, h2]
        · have h1 : min MAX_CONCURRENT_REQUESTS (N - i) = MAX_CONCURRENT_REQUESTS := by
            omega
          rw [h1, List.range'_append_1]
          congr 1
          simp only [MAX_CONCURRENT_REQUESTS] at *
          omega
      · rw [dif_neg h]
        have : N - i = 0 := by omega
        simp [this]

theorem chunkBatches_mem_length (N : ℕ) :
    ∀ k i b, N - i = k → b ∈ chunkBatches N i →
      b.length ≤ MAX_CONCURRENT_REQUESTS := by
  intro k
  induction k using Nat.strong_induction_on with
  | _ k ih =>
      intro i b hk hb
      rw [chunkBatches] at hb
      by_cases h : i < N
      · rw [dif_pos h] at hb
        rcases List.mem_cons.mp hb with hb | hb
        · subst hb
          simp only [List.length_range']
          omega
        · refine ih (N - (i + MAX_CONCURRENT_REQUESTS)) ?_ _ _ rfl hb
          simp only [MAX_CONCURRENT_REQUESTS] at *
          omega
      · rw [dif_neg h] at hb
        exact absurd hb (List.not_mem_nil b)

end ChunkedDataLoader

namespace ChunkedDataLoader

theorem emitChunkEvents_range' (N : ℕ) (c : ℕ → List IEmotionData) :
    ∀ (m a loaded : ℕ),
      emitChunkEvents N c loaded (List.range' a m) =
        (List.range m).map fun j =>
          ((((loaded + j + 1 : ℕ) : ℚ) / (N : ℚ)) * 100, c (a + j)) := by
  intro m
  induction m with
  | zero => intro a loaded; simp [emitChunkEvents]
  | succ m ih =>
      intro a loaded
      rw [List.range'_succ, List.range_succ_eq_map]
      simp only [emitChunkEvents, ih, List.map_cons, List.map_map]
      refine congrArg₂ _ ?_ ?_
      · simp
      · refine List.map_congr_left ?_
        intro j _
        have h1 : loaded + 1 + j + 1 = loaded + (j + 1) + 1 := by omega
        have h2 : a + 1 + j = a + (j + 1) := by omega
        simp [Function.comp, h1, h2]

theorem loadDataProgressively_eq_map (N : ℕ)
    (rawChunks : ℕ → List IRawEmotionData) :
    loadDataProgressively N rawChunks =
      (List.range N).map fun k =>
        ((((k + 1 : ℕ) : ℚ) / (N : ℚ)) * 100, loadChunk rawChunks k) := by
  rw [loadDataProgressively, loadBatches_eq_emit,
    chunkBatches_join N (N - 0) 0 rfl]
  simp only [Nat.sub_zero]
  rw [emitChunkEvents_range' N (loadChunk rawChunks) N 0 0]
  refine List.map_congr_left ?_
  intro j _
  simp

end ChunkedDataLoader

/-- C3: on a successful `loadDataProgressively` run with `totalChunks = N > 0`,
exactly N progress events are emitted, the k-th (0-indexed) event carries
progress `((k+1)/N) * 100` and the k-th normalized chunk, the progress
sequence is non-decreasing and the final value equals exactly 100. -/
theorem c3_progress_events (N : ℕ) (hN : 0 < N)
    (rawChunks : ℕ → List IRawEmotionData) :
    (ChunkedDataLoader.loadDataProgressively N rawChunks).length = N ∧
    (∀ k, k < N →
      (ChunkedDataLoader.loadDataProgressively N rawChunks)[k]? =
        some ((((k + 1 : ℕ) : ℚ) / (N : ℚ)) * 100,
          ChunkedDataLoader.loadChunk rawChunks k)) ∧
    List.Chain' (· ≤ ·)
      ((ChunkedDataLoader.loadDataProgressively N rawChunks).map Prod.fst) ∧
    ((ChunkedDataLoader.loadDataProgressively N rawChunks).map Prod.fst).getLast?
      = some 100 := by
  rw [ChunkedDataLoader.loadDataProgressively_eq_map N rawChunks]
  refine ⟨by simp, ?_, ?_, ?_⟩
  · intro k hk
    simp [List.getElem?_map, List.getElem?_range hk]
  · rw [List.map_map]
    have hpair : (List.range N).Pairwise (· < ·) := List.pairwise_lt_range N
    refine List.Pairwise.chain' (List.Pairwise.map _ ?_ hpair)
    intro i j hij
    simp only [Function.comp]
    have hN0 : (0 : ℚ) < (N : ℚ) := by exact_mod_cast hN
    have hle : ((i + 1 : ℕ) : ℚ) ≤ ((j + 1 : ℕ) : ℚ) := by
      exact_mod_cast Nat.succ_le_succ (Nat.le_of_lt hij)
    gcongr
  · obtain ⟨m, rfl⟩ : ∃ m, N = m + 1 := ⟨N - 1, by omega⟩
    rw [List.range_succ]
    simp only [List.map_append, List.map_cons, List.map_nil]
    rw [List.getLast?_concat]
    have hne : ((m : ℚ) + 1) ≠ 0 := by positivity
    simp [div_self hne]

/-- Witness for C3 at N = 3. -/
theorem c3_progress_events_witness :
    (ChunkedDataLoader.loadDataProgressively 3 (fun _ => [])).length = 3 ∧
    (∀ k, k < 3 →
      (ChunkedDataLoader.loadDataProgressively 3 (fun _ => []))[k]? =
        some ((((k + 1 : ℕ) : ℚ) / ((3 : ℕ) : ℚ)) * 100,
          ChunkedDataLoader.loadChunk (fun _ => []) k)) ∧
    List.Chain' (· ≤ ·)
      ((ChunkedDataLoader.loadDataProgressively 3 (fun _ => [])).map Prod.fst) ∧
    ((ChunkedDataLoader.loadDataProgressively 3 (fun _ => [])).map Prod.fst).getLast?
      = some 100 :=
  c3_progress_events 3 (by norm_num) (fun _ => [])

/-- C7: `loadDataProgressively` partitions the chunk ids `[0, totalChunks)`
into sequential batches: every batch holds at most
`MAX_CONCURRENT_REQUESTS = 8` chunk ids, and the concatenation of the batches,
in issue order, is exactly `0, 1, ..., totalChunks - 1` — so a new batch's
fetches are issued only after the previous batch settles and never more than
8 chunk fetches are in flight. -/
theorem c7_batch_width_bound (N : ℕ) (b : List ℕ)
    (hb : b ∈ ChunkedDataLoader.chunkBatches N 0) :
    b.length ≤ ChunkedDataLoader.MAX_CONCURRENT_REQUESTS ∧
    (ChunkedDataLoader.chunkBatches N 0).flatten = List.range N := by
  refine ⟨ChunkedDataLoader.chunkBatches_mem_length N (N - 0) 0 b rfl hb, ?_⟩
  rw [ChunkedDataLoader.chunkBatches_join N (N - 0) 0 rfl]
  simp [List.range_eq_range']

/-- Witness for C7: the first batch of a 20-chunk load. -/
theorem c7_batch_width_bound_witness :
    (List.range' 0 8).length ≤ ChunkedDataLoader.MAX_CONCURRENT_REQUESTS ∧
    (ChunkedDataLoader.chunkBatches 20 0).flatten = List.range 20 := by
  refine c7_batch_width_bound 20 (List.range' 0 8) ?_
  rw [ChunkedDataLoader.chunkBatches]
  rw [dif_pos (by norm_num)]
  have h : min ChunkedDataLoader.MAX_CONCURRENT_REQUESTS (20 - 0) = 8 := by
    simp [ChunkedDataLoader.MAX_CONCURRENT_REQUESTS]
  rw [h]
  exact List.mem_cons_self _ _

/-!
The `DataCache` of `EmotionApiClient.ts` (DataCache.ts part).  A JS `Map` is
an insertion-ordered association list with unique keys: `set` on a present
key updates it in place, on an absent key appends; `keys().next().value` is
the first (insertion-oldest) key.  `Date.now()` instants are an explicit ℚ
parameter; a stored value of `T | null` is an `Option`.
-/

/-- `Map.set` semantics on an insertion-ordered association list. -/
def mapSet {V : Type} (l : List (String × V)) (k : String) (v : V) :
    List (String × V) :=
  match l.lookup k with
  | some _ => l.map fun p => if p.1 = k then (k, v) else p
  | none => l ++ [(k, v)]

/-- `Map.delete` semantics: remove the entry with key `k`. -/
def mapDelete {V : Type} (l : List (String × V)) (k : String) :
    List (String × V) :=
  l.filter fun p => decide (p.1 ≠ k)

/-- One cache slot: `{ data, timestamp, ttl }` (timestamp and ttl in ms). -/
structure CacheEntry (V : Type) : Type where
  data : Option V
  timestamp : ℚ
  ttl : ℚ
deriving DecidableEq

/-- The `DataCache` state: the backing `Map`, the hit/miss counters and the
capacity `maxSize`. -/
structure DataCache (V : Type) : Type where
  cache : List (String × CacheEntry V)
  hits : ℕ
  misses : ℕ
  maxSize : ℕ
deriving DecidableEq

namespace DataCache

/-- A freshly constructed cache (`new DataCache(maxSize)`). -/
def mk0 (V : Type) (maxSize : ℕ) : DataCache V :=
  { cache := [], hits := 0, misses := 0, maxSize := maxSize }

/-- `DataCache.set`: when the store holds at least `maxSize` entries the
first (insertion-oldest) key is deleted, then the entry is stored with
`timestamp = now` and `ttl` converted from seconds to milliseconds. -/
def set {V : Type} (c : DataCache V) (now : ℚ) (key : String) (d : Option V)
    (ttl : ℚ) : DataCache V :=
  let c' :=
    if c.cache.length ≥ c.maxSize then
      match c.cache.head? with
      | some (firstKey, _) => { c with cache := mapDelete c.cache firstKey }
      | none => c
    else c
  { c' with cache := mapSet c'.cache key { data := d, timestamp := now, ttl := ttl * 1000 } }

/-- `DataCache.get`: records a miss and returns null on an absent key; on an
entry whose age `now - timestamp` strictly exceeds its ttl, deletes it,
records a miss and returns null; otherwise records a hit and returns the
stored data. -/
def get {V : Type} (c : DataCache V) (now : ℚ) (key : String) :
    DataCache V × Option V :=
  match c.cache.lookup key with
  | none => ({ c with misses := c.misses + 1 }, none)
  | some entry =>
      if now - entry.timestamp > entry.ttl then
        ({ c with cache := mapDelete c.cache key, misses := c.misses + 1 }, none)
      else
        ({ c with hits := c.hits + 1 }, entry.data)

/-- `DataCache.has`: like `get` but returns a Boolean and touches no
counters; an expired entry is deleted at that moment. -/
def has {V : Type} (c : DataCache V) (now : ℚ) (key : String) :
    DataCache V × Bool :=
  match c.cache.lookup key with
  | none => (c, false)
  | some entry =>
      if now - entry.timestamp > entry.ttl then
        ({ c with cache := mapDelete c.cache key }, false)
      else
        (c, true)

/-- `DataCache.delete`. -/
def del {V : Type} (c : DataCache V) (key : String) : DataCache V :=
  { c with cache := mapDelete c.cache key }

/-- `DataCache.deleteByPattern`: the regex is modelled as a key predicate. -/
def deleteByPattern {V : Type} (c : DataCache V) (p : String → Bool) :
    DataCache V × ℕ :=
  ({ c with cache := c.cache.filter fun e => !(p e.1) },
    (c.cache.filter fun e => p e.1).length)

/-- `DataCache.clear`. -/
def clear {V : Type} (c : DataCache V) : DataCache V :=
  { c with cache := [], hits := 0, misses := 0 }

/-- `DataCache.cleanup`: removes every currently-expired entry and returns
the count removed. -/
def cleanup {V : Type} (c : DataCache V) (now : ℚ) : DataCache V × ℕ :=
  ({ c with cache := c.cache.filter fun e => !(decide (now - e.2.timestamp > e.2.ttl)) },
    (c.cache.filter fun e => decide (now - e.2.timestamp > e.2.ttl)).length)

/-- `DataCache.size`. -/
def size {V : Type} (c : DataCache V) : ℕ := c.cache.length

/-- `DataCache.getOrSetSync`: return the cached value if `get` yields
non-null, else invoke the factory, store its result and return it.  The
factory's result is the argument `fv`; the Boolean reports whether the
factory was invoked. -/
def getOrSetSync {V : Type} (c : DataCache V) (now : ℚ) (key : String)
    (fv : Option V) (ttl : ℚ) : DataCache V × Option V × Bool :=
  let r := get c now key
  match r.2 with
  | some v => (r.1, some v, false)
  | none => ((set r.1 now key fv ttl), fv, true)

/-- `DataCache.getOrSet` (async variant): identical logic, the factory's
awaited result being `fv`. -/
def getOrSet {V : Type} (c : DataCache V) (now : ℚ) (key : String)
    (fv : Option V) (ttl : ℚ) : DataCache V × Option V × Bool :=
  getOrSetSync c now key fv ttl

end DataCache

/-- One cache operation of the public interface, carrying the instant at
which it runs and, for `getOrSet`, the factory's result. -/
inductive CacheOp (V : Type) : Type
  | set (now : ℚ) (key : String) (d : Option V) (ttl : ℚ)
  | get (now : ℚ) (key : String)
  | has (now : ℚ) (key : String)
  | del (key : String)
  | deleteByPattern (p : String → Bool)
  | clear
  | cleanup (now : ℚ)
  | getOrSet (now : ℚ) (key : String) (fv : Option V) (ttl : ℚ)
  | getOrSetSync (now : ℚ) (key : String) (fv : Option V) (ttl : ℚ)

/-- The state reached after one cache operation. -/
def applyCacheOp {V : Type} (c : DataCache V) : CacheOp V → DataCache V
  | CacheOp.set now key d ttl => c.set now key d ttl
  | CacheOp.get now key => (c.get now key).1
  | CacheOp.has now key => (c.has now key).1
  | CacheOp.del key => c.del key
  | CacheOp.deleteByPattern p => (c.deleteByPattern p).1
  | CacheOp.clear => c.clear
  | CacheOp.cleanup now => (c.cleanup now).1
  | CacheOp.getOrSet now key fv ttl => (c.getOrSet now key fv ttl).1
  | CacheOp.getOrSetSync now key fv ttl => (c.getOrSetSync now key fv ttl).1

/-- The state reached after a sequence of cache operations. -/
def applyCacheOps {V : Type} (c : DataCache V) (ops : List (CacheOp V)) :
    DataCache V :=
  ops.foldl applyCacheOp c

section MapLemmas

variable {V : Type}

theorem lookup_cons_self (k : String) (v : V) (t : List (String × V)) :
    ((k, v) :: t).lookup k = some v := by
  simp [List.lookup]

theorem lookup_cons_ne (k ak : String) (av : V) (t : List (String × V))
    (hne : k ≠ ak) : ((ak, av) :: t).lookup k = t.lookup k := by
  rw [List.lookup, show (k == ak) = false from beq_eq_false_iff_ne.mpr hne]

theorem lookup_eq_none_of_not_mem_keys (k : String) :
    ∀ l : List (String × V), k ∉ l.map Prod.fst → l.lookup k = none := by
  intro l
  induction l with
  | nil => intro _; rfl
  | cons a t ih =>
      intro h
      rcases a with ⟨ak, av⟩
      simp only [List.map_cons, List.mem_cons, not_or] at h
      rw [lookup_cons_ne k ak av t h.1]
      exact ih h.2

theorem not_mem_keys_of_lookup_eq_none (k : String) :
    ∀ l : List (String × V), l.lookup k = none → k ∉ l.map Prod.fst := by
  intro l
  induction l with
  | nil => intro _; simp
  | cons a t ih =>
      intro h
      rcases a with ⟨ak, av⟩
      by_cases hak : k = ak
      · subst hak
        rw [lookup_cons_self] at h
        simp at h
      · rw [lookup_cons_ne k ak av t hak] at h
        simp only [List.map_cons, List.mem_cons, not_or]
        exact ⟨hak, ih h⟩

theorem mapSet_eq_replace (l : List (String × V)) (k : String) (v w : V)
    (h : l.lookup k = some w) :
    mapSet l k v = l.map fun p => if p.1 = k then (k, v) else p := by
  rw [mapSet, h]

theorem mapSet_of_lookup_none (l : List (String × V)) (k : String) (v : V)
    (h : l.lookup k = none) : mapSet l k v = l ++ [(k, v)] := by
  rw [mapSet, h]

theorem map_replace_of_lookup_none (k : String) (v : V) :
    ∀ t : List (String × V), t.lookup k = none →
      t.map (fun p => if p.1 = k then (k, v) else p) = t := by
  intro t
  induction t with
  | nil => intro _; rfl
  | cons a t ih =>
      intro h
      rcases a with ⟨ak, av⟩
      by_cases hak : ak = k
      · subst hak
        rw [lookup_cons_self] at h
        simp at h
      · rw [lookup_cons_ne k ak av t (Ne.symm hak)] at h
        have hf : (if ((ak, av) : String × V).1 = k then (k, v) else (ak, av))
            = (ak, av) := by simp [hak]
        rw [List.map_cons, hf, ih h]

theorem mapSet_lookup_self (k : String) (v : V) :
    ∀ l : List (String × V), (mapSet l k v).lookup k = some v := by
  intro l
  induction l with
  | nil => simp [mapSet, List.lookup]
  | cons a t ih =>
      rcases a with ⟨ak, av⟩
      by_cases hak : ak = k
      · subst hak
        have hc : ((ak, av) :: t).lookup ak = some av := lookup_cons_self ak av t
        have hf : (if ((ak, av) : String × V).1 = ak then (ak, v) else (ak, av))
            = (ak, v) := by simp
        rw [mapSet_eq_replace _ ak v av hc, List.map_cons, hf, lookup_cons_self]
      · have hf : (if ((ak, av) : String × V).1 = k then (k, v) else (ak, av))
            = (ak, av) := by simp [hak]
        cases ht : t.lookup k with
        | none =>
            have hc : ((ak, av) :: t).lookup k = none := by
              rw [lookup_cons_ne k ak av t (Ne.symm hak), ht]
            rw [mapSet_of_lookup_none _ k v hc, List.cons_append,
              lookup_cons_ne k ak av _ (Ne.symm hak)]
            rw [mapSet_of_lookup_none t k v ht] at ih
            exact ih
        | some w =>
            have hc : ((ak, av) :: t).lookup k = some w := by
              rw [lookup_cons_ne k ak av t (Ne.symm hak), ht]
            rw [mapSet_eq_replace _ k v w hc, List.map_cons, hf,
              lookup_cons_ne k ak av _ (Ne.symm hak)]
            rw [mapSet_eq_replace t k v w ht] at ih
            exact ih

theorem mapSet_lookup_ne (k k' : String) (v : V) (hne : k' ≠ k) :
    ∀ l : List (String × V), (mapSet l k v).lookup k' = l.lookup k' := by
  intro l
  induction l with
  | nil =>
      rw [mapSet]
      show List.lookup k' ([] ++ [(k, v)]) = List.lookup k' []
      rw [List.nil_append, lookup_cons_ne k' k v [] hne]
  | cons a t ih =>
      rcases a with ⟨ak, av⟩
      by_cases hak : ak = k
      · subst hak
        have hc : ((ak, av) :: t).lookup ak = some av := lookup_cons_self ak av t
        have hf : (if ((ak, av) : String × V).1 = ak then (ak, v) else (ak, av))
            = (ak, v) := by simp
        rw [mapSet_eq_replace _ ak v av hc, List.map_cons, hf,
          lookup_cons_ne k' ak v _ hne, lookup_cons_ne k' ak av t hne]
        cases ht : t.lookup ak with
        | some w =>
            rw [mapSet_eq_replace t ak v w ht] at ih
            exact ih
        | none => rw [map_replace_of_lookup_none ak v t ht]
      · have hf : (if ((ak, av) : String × V).1 = k then (k, v) else (ak, av))
            = (ak, av) := by simp [hak]
        cases ht : t.lookup k with
        | none =>
            have hc : ((ak, av) :: t).lookup k = none := by
              rw [lookup_cons_ne k ak av t (Ne.symm hak), ht]
            rw [mapSet_of_lookup_none _ k v hc, List.cons_append]
            rw [mapSet_of_lookup_none t k v ht] at ih
            by_cases hk' : k' = ak
            · subst hk'
              rw [lookup_cons_self, lookup_cons_self]
            · rw [lookup_cons_ne k' ak av _ hk', lookup_cons_ne k' ak av t hk']
              exact ih
        | some w =>
            have hc : ((ak, av) :: t).lookup k = some w := by
              rw [lookup_cons_ne k ak av t (Ne.symm hak), ht]
            rw [mapSet_eq_replace _ k v w hc, List.map_cons, hf]
            rw [mapSet_eq_replace t k v w ht] at ih
            by_cases hk' : k' = ak
            · subst hk'
              rw [lookup_cons_self, lookup_cons_self]
            · rw [lookup_cons_ne k' ak av _ hk', lookup_cons_ne k' ak av t hk']
              exact ih

theorem mapSet_length_le (l : List (String × V)) (k : String) (v : V) :
    (mapSet l k v).length ≤ l.length + 1 := by
  cases ht : l.lookup k with
  | none => rw [mapSet_of_lookup_none l k v ht]; simp
  | some w => rw [mapSet_eq_replace l k v w ht]; simp

theorem mapDelete_length_le (l : List (String × V)) (k : String) :
    (mapDelete l k).length ≤ l.length :=
  List.length_filter_le _ _

theorem mapDelete_cons_self (k : String) (v : V) (t : List (String × V)) :
    mapDelete ((k, v) :: t) k = mapDelete t k := by
  simp [mapDelete, List.filter]

theorem mapDelete_cons_ne (k ak : String) (av : V) (t : List (String × V))
    (hne : ak ≠ k) : mapDelete ((ak, av) :: t) k = (ak, av) :: mapDelete t k := by
  simp [mapDelete, List.filter, hne]

theorem mapDelete_lookup_self (k : String) :
    ∀ l : List (String × V), (mapDelete l k).lookup k = none := by
  intro l
  induction l with
  | nil => simp [mapDelete, List.lookup]
  | cons a t ih =>
      rcases a with ⟨ak, av⟩
      by_cases hak : ak = k
      · subst hak
        rw [mapDelete_cons_self]
        exact ih
      · rw [mapDelete_cons_ne k ak av t hak,
          lookup_cons_ne k ak av _ (Ne.symm hak)]
        exact ih

theorem mapDelete_lookup_ne (k k' : String) (hne : k' ≠ k) :
    ∀ l : List (String × V), (mapDelete l k).lookup k' = l.lookup k' := by
  intro l
  induction l with
  | nil => simp [mapDelete]
  | cons a t ih =>
      rcases a with ⟨ak, av⟩
      by_cases hak : ak = k
      · subst hak
        rw [mapDelete_cons_self, lookup_cons_ne k' ak av t hne]
        exact ih
      · by_cases hk' : k' = ak
        · subst hk'
          rw [mapDelete_cons_ne k k' av t hak, lookup_cons_self,
            lookup_cons_self]
        · rw [mapDelete_cons_ne k ak av t hak,
            lookup_cons_ne k' ak av _ hk', lookup_cons_ne k' ak av t hk']
          exact ih

theorem mapDelete_of_not_mem_keys (l : List (String × V)) (k : String)
    (h : k ∉ l.map Prod.fst) : mapDelete l k = l := by
  rw [mapDelete]
  refine List.filter_eq_self.mpr ?_
  intro p hp
  have hq : p.1 ≠ k := by
    intro hq
    exact h (List.mem_map.mpr ⟨p, hp, hq⟩)
  simpa using hq

end MapLemmas

namespace DataCache

variable {V : Type}

theorem get_miss (c : DataCache V) (now : ℚ) (k : String)
    (h : c.cache.lookup k = none) :
    c.get now k = ({ c with misses := c.misses + 1 }, none) := by
  simp only [DataCache.get, h]

theorem get_expired (c : DataCache V) (now : ℚ) (k : String) (e : CacheEntry V)
    (h : c.cache.lookup k = some e) (hexp : now - e.timestamp > e.ttl) :
    c.get now k =
      ({ c with cache := mapDelete c.cache k, misses := c.misses + 1 }, none) := by
  simp only [DataCache.get, h, if_pos hexp]

theorem get_hit (c : DataCache V) (now : ℚ) (k : String) (e : CacheEntry V)
    (h : c.cache.lookup k = some e) (hfresh : ¬ now - e.timestamp > e.ttl) :
    c.get now k = ({ c with hits := c.hits + 1 }, e.data) := by
  simp only [DataCache.get, h, if_neg hfresh]

theorem has_miss (c : DataCache V) (now : ℚ) (k : String)
    (h : c.cache.lookup k = none) : c.has now k = (c, false) := by
  simp only [DataCache.has, h]

theorem has_expired (c : DataCache V) (now : ℚ) (k : String) (e : CacheEntry V)
    (h : c.cache.lookup k = some e) (hexp : now - e.timestamp > e.ttl) :
    c.has now k = ({ c with cache := mapDelete c.cache k }, false) := by
  simp only [DataCache.has, h, if_pos hexp]

theorem has_present (c : DataCache V) (now : ℚ) (k : String) (e : CacheEntry V)
    (h : c.cache.lookup k = some e) (hfresh : ¬ now - e.timestamp > e.ttl) :
    c.has now k = (c, true) := by
  simp only [DataCache.has, h, if_neg hfresh]

theorem set_lookup_self (c : DataCache V) (now : ℚ) (k : String) (d : Option V)
    (ttl : ℚ) :
    (c.set now k d ttl).cache.lookup k
      = some { data := d, timestamp := now, ttl := ttl * 1000 } := by
  simp only [DataCache.set]
  exact mapSet_lookup_self k _ _

theorem set_hits (c : DataCache V) (now : ℚ) (k : String) (d : Option V)
    (ttl : ℚ) : (c.set now k d ttl).hits = c.hits := by
  simp only [DataCache.set]
  split
  · split <;> rfl
  · rfl

theorem set_misses (c : DataCache V) (now : ℚ) (k : String) (d : Option V)
    (ttl : ℚ) : (c.set now k d ttl).misses = c.misses := by
  simp only [DataCache.set]
  split
  · split <;> rfl
  · rfl

theorem set_maxSize (c : DataCache V) (now : ℚ) (k : String) (d : Option V)
    (ttl : ℚ) : (c.set now k d ttl).maxSize = c.maxSize := by
  simp only [DataCache.set]
  split
  · split <;> rfl
  · rfl

theorem getOrSetSync_of_get_none (c : DataCache V) (now : ℚ) (k : String)
    (fv : Option V) (ttl : ℚ) (h : (c.get now k).2 = none) :
    c.getOrSetSync now k fv ttl = ((c.get now k).1.set now k fv ttl, fv, true) := by
  simp only [DataCache.getOrSetSync, h]

theorem getOrSetSync_of_get_some (c : DataCache V) (now : ℚ) (k : String)
    (fv : Option V) (ttl : ℚ) (v : V) (h : (c.get now k).2 = some v) :
    c.getOrSetSync now k fv ttl = ((c.get now k).1, some v, false) := by
  simp only [DataCache.getOrSetSync, h]

end DataCache

/-- C5: after `set(k, v, ttl)` at instant `t0`, a `get(k)` at any instant `t`
whose age `t - t0` does not exceed the stored ttl (`ttl * 1000` ms) returns
`v`; once the age strictly exceeds it, `get` returns null and removes the
entry, and `has` returns false and removes the entry. -/
theorem c5_cache_ttl {V : Type} (c : DataCache V) (t0 t : ℚ) (k : String)
    (v : Option V) (ttl : ℚ) :
    ((t - t0 ≤ ttl * 1000) → ((c.set t0 k v ttl).get t k).2 = v) ∧
    ((t - t0 > ttl * 1000) →
      ((c.set t0 k v ttl).get t k).2 = none ∧
      ((c.set t0 k v ttl).get t k).1.cache.lookup k = none ∧
      ((c.set t0 k v ttl).has t k).2 = false ∧
      ((c.set t0 k v ttl).has t k).1.cache.lookup k = none) := by
  have hl := DataCache.set_lookup_self c t0 k v ttl
  constructor
  · intro hle
    have hfresh : ¬ t - ({ data := v, timestamp := t0, ttl := ttl * 1000 } :
        CacheEntry V).timestamp > ({ data := v, timestamp := t0, ttl := ttl * 1000 } :
        CacheEntry V).ttl := by
      simpa using not_lt.mpr hle
    rw [DataCache.get_hit _ t k _ hl hfresh]
  · intro hgt
    have hexp : t - ({ data := v, timestamp := t0, ttl := ttl * 1000 } :
        CacheEntry V).timestamp > ({ data := v, timestamp := t0, ttl := ttl * 1000 } :
        CacheEntry V).ttl := by simpa using hgt
    have hget := DataCache.get_expired _ t k _ hl hexp
    have hhas := DataCache.has_expired _ t k _ hl hexp
    refine ⟨by rw [hget], ?_, by rw [hhas], ?_⟩
    · rw [hget]
      exact mapDelete_lookup_self k _
    · rw [hhas]
      exact mapDelete_lookup_self k _

/-- Witness for C5: value 42 stored at t0 = 0 with ttl 1 s is returned at
t = 500 ms and gone at t = 1001 ms. -/
theorem c5_cache_ttl_witness :
    (((DataCache.mk0 ℕ 5).set 0 "k" (some 42) 1).get 500 "k").2 = some 42 ∧
    (((DataCache.mk0 ℕ 5).set 0 "k" (some 42) 1).get 1001 "k").2 = none ∧
    (((DataCache.mk0 ℕ 5).set 0 "k" (some 42) 1).get 1001 "k").1.cache.lookup "k"
      = none ∧
    (((DataCache.mk0 ℕ 5).set 0 "k" (some 42) 1).has 1001 "k").2 = false ∧
    (((DataCache.mk0 ℕ 5).set 0 "k" (some 42) 1).has 1001 "k").1.cache.lookup "k"
      = none := by
  have h1 := (c5_cache_ttl (DataCache.mk0 ℕ 5) 0 500 "k" (some 42) 1).1 (by norm_num)
  have h2 := (c5_cache_ttl (DataCache.mk0 ℕ 5) 0 1001 "k" (some 42) 1).2 (by norm_num)
  exact ⟨h1, h2.1, h2.2.1, h2.2.2.1, h2.2.2.2⟩

/-- C9: when every entry stored under `k` holds the JS value `null`
(modelled `none`), `getOrSetSync` never serves it from the cache: the factory
is invoked (again) on every call and null is returned and re-stored; within
such a call the underlying `get` counts a hit exactly when the entry is
present and unexpired, and a miss exactly when it is absent; the async
`getOrSet` is the same function. -/
theorem c9_null_never_served {V : Type} (c : DataCache V) (now : ℚ)
    (k : String) (ttl : ℚ)
    (hnull : ∀ e, c.cache.lookup k = some e → e.data = none) :
    ((c.getOrSetSync now k none ttl).2.1 = none ∧
      (c.getOrSetSync now k none ttl).2.2 = true) ∧
    (c.getOrSetSync now k none ttl).1.cache.lookup k
      = some { data := none, timestamp := now, ttl := ttl * 1000 } ∧
    (∀ e, c.cache.lookup k = some e → ¬ now - e.timestamp > e.ttl →
      (c.getOrSetSync now k none ttl).1.hits = c.hits + 1 ∧
      (c.getOrSetSync now k none ttl).1.misses = c.misses) ∧
    (c.cache.lookup k = none →
      (c.getOrSetSync now k none ttl).1.misses = c.misses + 1 ∧
      (c.getOrSetSync now k none ttl).1.hits = c.hits) ∧
    (∀ (c' : DataCache V) (now' ttl' : ℚ) (k' : String) (fv : Option V),
      c'.getOrSet now' k' fv ttl' = c'.getOrSetSync now' k' fv ttl') := by
  cases hlk : c.cache.lookup k with
  | none =>
      have hget := DataCache.get_miss c now k hlk
      have h2 : (c.get now k).2 = none := by rw [hget]
      have hs := DataCache.getOrSetSync_of_get_none c now k none ttl h2
      refine ⟨⟨by rw [hs], by rw [hs]⟩, ?_, ?_, ?_, fun _ _ _ _ _ => rfl⟩
      · rw [hs]
        exact DataCache.set_lookup_self _ now k none ttl
      · intro e he _
        exact Option.noConfusion he
      · intro _
        constructor
        · rw [hs, DataCache.set_misses, hget]
        · rw [hs, DataCache.set_hits, hget]
  | some e =>
      have hdata : e.data = none := hnull e hlk
      by_cases hexp : now - e.timestamp > e.ttl
      · have hget := DataCache.get_expired c now k e hlk hexp
        have h2 : (c.get now k).2 = none := by rw [hget]
        have hs := DataCache.getOrSetSync_of_get_none c now k none ttl h2
        refine ⟨⟨by rw [hs], by rw [hs]⟩, ?_, ?_, ?_, fun _ _ _ _ _ => rfl⟩
        · rw [hs]
          exact DataCache.set_lookup_self _ now k none ttl
        · intro e' he' hfr
          have he'' := Option.some.inj he'
          subst he''
          exact absurd hexp hfr
        · intro hnone
          exact Option.noConfusion hnone
      · have hget := DataCache.get_hit c now k e hlk hexp
        have h2 : (c.get now k).2 = none := by
          rw [hget]
          exact hdata
        have hs := DataCache.getOrSetSync_of_get_none c now k none ttl h2
        refine ⟨⟨by rw [hs], by rw [hs]⟩, ?_, ?_, ?_, fun _ _ _ _ _ => rfl⟩
        · rw [hs]
          exact DataCache.set_lookup_self _ now k none ttl
        · intro e' he' _
          constructor
          · rw [hs, DataCache.set_hits, hget]
          · rw [hs, DataCache.set_misses, hget]
        · intro hnone
          exact Option.noConfusion hnone

/-- Witness for C9: a cache already holding a null entry under "k". -/
theorem c9_null_never_served_witness :
    ((((DataCache.mk0 ℕ 3).set 0 "k" none 10).getOrSetSync 5 "k" none 10).2.1
        = none ∧
      (((DataCache.mk0 ℕ 3).set 0 "k" none 10).getOrSetSync 5 "k" none 10).2.2
        = true) ∧
    (((DataCache.mk0 ℕ 3).set 0 "k" none 10).getOrSetSync 5 "k" none 10).1.cache.lookup
        "k" = some { data := none, timestamp := 5, ttl := 10 * 1000 } ∧
    (∀ e, ((DataCache.mk0 ℕ 3).set 0 "k" none 10).cache.lookup "k" = some e →
      ¬ (5 : ℚ) - e.timestamp > e.ttl →
      (((DataCache.mk0 ℕ 3).set 0 "k" none 10).getOrSetSync 5 "k" none 10).1.hits
        = ((DataCache.mk0 ℕ 3).set 0 "k" none 10).hits + 1 ∧
      (((DataCache.mk0 ℕ 3).set 0 "k" none 10).getOrSetSync 5 "k" none 10).1.misses
        = ((DataCache.mk0 ℕ 3).set 0 "k" none 10).misses) ∧
    (((DataCache.mk0 ℕ 3).set 0 "k" none 10).cache.lookup "k" = none →
      (((DataCache.mk0 ℕ 3).set 0 "k" none 10).getOrSetSync 5 "k" none 10).1.misses
        = ((DataCache.mk0 ℕ 3).set 0 "k" none 10).misses + 1 ∧
      (((DataCache.mk0 ℕ 3).set 0 "k" none 10).getOrSetSync 5 "k" none 10).1.hits
        = ((DataCache.mk0 ℕ 3).set 0 "k" none 10).hits) ∧
    (∀ (c' : DataCache ℕ) (now' ttl' : ℚ) (k' : String) (fv : Option ℕ),
      c'.getOrSet now' k' fv ttl' = c'.getOrSetSync now' k' fv ttl') := by
  refine c9_null_never_served ((DataCache.mk0 ℕ 3).set 0 "k" none 10) 5 "k" 10 ?_
  intro e he
  rw [DataCache.set_lookup_self] at he
  have he' := Option.some.inj he
  subst he'
  rfl

namespace DataCache

variable {V : Type}

theorem get_fst_maxSize (c : DataCache V) (now : ℚ) (k : String) :
    (c.get now k).1.maxSize = c.maxSize := by
  cases h : c.cache.lookup k with
  | none => rw [get_miss c now k h]
  | some e =>
      by_cases hexp : now - e.timestamp > e.ttl
      · rw [get_expired c now k e h hexp]
      · rw [get_hit c now k e h hexp]

theorem get_fst_length_le (c : DataCache V) (now : ℚ) (k : String) :
    (c.get now k).1.cache.length ≤ c.cache.length := by
  cases h : c.cache.lookup k with
  | none => rw [get_miss c now k h]
  | some e =>
      by_cases hexp : now - e.timestamp > e.ttl
      · rw [get_expired c now k e h hexp]
        exact mapDelete_length_le _ _
      · rw [get_hit c now k e h hexp]

theorem has_fst_maxSize (c : DataCache V) (now : ℚ) (k : String) :
    (c.has now k).1.maxSize = c.maxSize := by
  cases h : c.cache.lookup k with
  | none => rw [has_miss c now k h]
  | some e =>
      by_cases hexp : now - e.timestamp > e.ttl
      · rw [has_expired c now k e h hexp]
      · rw [has_present c now k e h hexp]

theorem has_fst_length_le (c : DataCache V) (now : ℚ) (k : String) :
    (c.has now k).1.cache.length ≤ c.cache.length := by
  cases h : c.cache.lookup k with
  | none => rw [has_miss c now k h]
  | some e =>
      by_cases hexp : now - e.timestamp > e.ttl
      · rw [has_expired c now k e h hexp]
        exact mapDelete_length_le _ _
      · rw [has_present c now k e h hexp]

theorem set_length_le (c : DataCache V) (now : ℚ) (k : String) (d : Option V)
    (ttl : ℚ) (hmax : 1 ≤ c.maxSize) (hlen : c.cache.length ≤ c.maxSize) :
    (c.set now k d ttl).cache.length ≤ c.maxSize := by
  cases hc : c.cache with
  | nil =>
      have hlt : ¬ c.cache.length ≥ c.maxSize := by
        rw [hc]
        simp only [List.length_nil]
        omega
      simp only [DataCache.set, if_neg hlt]
      rw [hc]
      calc (mapSet ([] : List (String × CacheEntry V)) k
            { data := d, timestamp := now, ttl := ttl * 1000 }).length
          ≤ 0 + 1 := mapSet_length_le [] k _
        _ ≤ c.maxSize := hmax
  | cons hd t =>
      rcases hd with ⟨fk, fe⟩
      by_cases hge : c.cache.length ≥ c.maxSize
      · have hhd : c.cache.head? = some (fk, fe) := by rw [hc]; rfl
        simp only [DataCache.set, if_pos hge, hhd]
        have h1 : (mapDelete c.cache fk).length ≤ t.length := by
          rw [hc, mapDelete_cons_self]
          exact mapDelete_length_le t fk
        have h2 : t.length + 1 ≤ c.maxSize := by
          have hl : c.cache.length = t.length + 1 := by rw [hc]; rfl
          omega
        calc (mapSet (mapDelete c.cache fk) k
              { data := d, timestamp := now, ttl := ttl * 1000 }).length
            ≤ (mapDelete c.cache fk).length + 1 := mapSet_length_le _ k _
          _ ≤ c.maxSize := by omega
      · simp only [DataCache.set, if_neg hge]
        calc (mapSet c.cache k
              { data := d, timestamp := now, ttl := ttl * 1000 }).length
            ≤ c.cache.length + 1 := mapSet_length_le _ k _
          _ ≤ c.maxSize := by omega

end DataCache

namespace DataCache

variable {V : Type}

theorem getOrSetSync_fst_inv (c : DataCache V) (now : ℚ) (k : String)
    (fv : Option V) (ttl : ℚ) (hmax : 1 ≤ c.maxSize)
    (hlen : c.cache.length ≤ c.maxSize) :
    (c.getOrSetSync now k fv ttl).1.maxSize = c.maxSize ∧
    (c.getOrSetSync now k fv ttl).1.cache.length ≤ c.maxSize := by
  cases h2 : (c.get now k).2 with
  | some v =>
      rw [getOrSetSync_of_get_some c now k fv ttl v h2]
      exact ⟨get_fst_maxSize c now k, le_trans (get_fst_length_le c now k) hlen⟩
  | none =>
      rw [getOrSetSync_of_get_none c now k fv ttl h2]
      have hm := get_fst_maxSize c now k
      have hl := get_fst_length_le c now k
      constructor
      · rw [set_maxSize, hm]
      · show ((c.get now k).1.set now k fv ttl).cache.length ≤ c.maxSize
        have hs := set_length_le (c.get now k).1 now k fv ttl (by omega) (by omega)
        omega

end DataCache

/-- The state invariant preserved by every single cache operation. -/
theorem applyCacheOp_inv {V : Type} (c : DataCache V) (op : CacheOp V)
    (hmax : 1 ≤ c.maxSize) (hlen : c.cache.length ≤ c.maxSize) :
    (applyCacheOp c op).maxSize = c.maxSize ∧
    (applyCacheOp c op).cache.length ≤ c.maxSize := by
  cases op with
  | set now key d ttl =>
      exact ⟨DataCache.set_maxSize c now key d ttl,
        DataCache.set_length_le c now key d ttl hmax hlen⟩
  | get now key =>
      exact ⟨DataCache.get_fst_maxSize c now key,
        le_trans (DataCache.get_fst_length_le c now key) hlen⟩
  | has now key =>
      exact ⟨DataCache.has_fst_maxSize c now key,
        le_trans (DataCache.has_fst_length_le c now key) hlen⟩
  | del key =>
      exact ⟨rfl, le_trans (mapDelete_length_le c.cache key) hlen⟩
  | deleteByPattern p =>
      exact ⟨rfl, le_trans (List.length_filter_le _ _) hlen⟩
  | clear =>
      exact ⟨rfl, by simp [applyCacheOp, DataCache.clear]⟩
  | cleanup now =>
      exact ⟨rfl, le_trans (List.length_filter_le _ _) hlen⟩
  | getOrSet now key fv ttl =>
      exact DataCache.getOrSetSync_fst_inv c now key fv ttl hmax hlen
  | getOrSetSync now key fv ttl =>
      exact DataCache.getOrSetSync_fst_inv c now key fv ttl hmax hlen

theorem applyCacheOps_inv {V : Type} (C : ℕ) (hC : 1 ≤ C) :
    ∀ (ops : List (CacheOp V)) (c : DataCache V),
      c.maxSize = C → c.cache.length ≤ C →
      (applyCacheOps c ops).cache.length ≤ C ∧
      (applyCacheOps c ops).maxSize = C := by
  intro ops
  induction ops with
  | nil => intro c h1 h2; exact ⟨h2, h1⟩
  | cons op rest ih =>
      intro c h1 h2
      have step := applyCacheOp_inv c op (by omega) (by omega)
      have hstep1 : (applyCacheOp c op).maxSize = C := by rw [step.1, h1]
      have hstep2 : (applyCacheOp c op).cache.length ≤ C := by
        have := step.2
        omega
      exact ih (applyCacheOp c op) hstep1 hstep2

/-- C8: starting from a freshly constructed cache with `maxSize = C ≥ 1`,
every sequence of public cache operations keeps the entry count at or below
`C`; moreover `set` on a cache holding at least `maxSize` entries always
deletes the insertion-oldest key first — even when the key being set is
already present — so any other first key is absent afterwards. -/
theorem c8_capacity_invariant {V : Type} (C : ℕ) (ops : List (CacheOp V))
    (hC : 1 ≤ C) :
    (applyCacheOps (DataCache.mk0 V C) ops).size ≤ C ∧
    (∀ (c : DataCache V) (now ttl : ℚ) (key fk : String) (fe : CacheEntry V)
        (d : Option V),
      c.cache.length ≥ c.maxSize → c.cache.head? = some (fk, fe) → fk ≠ key →
      (c.set now key d ttl).cache.lookup fk = none) := by
  constructor
  · exact (applyCacheOps_inv C hC ops (DataCache.mk0 V C) rfl (by simp [DataCache.mk0])).1
  · intro c now ttl key fk fe d hge hhd hne
    simp only [DataCache.set, if_pos hge, hhd]
    rw [mapSet_lookup_ne key fk _ hne]
    exact mapDelete_lookup_self fk c.cache

/-- Witness for C8: a capacity-2 cache driven through every kind of
operation, including a set on a full cache whose first key differs from the
set key. -/
theorem c8_capacity_invariant_witness :
    (applyCacheOps (DataCache.mk0 ℕ 2)
        [CacheOp.set 0 "a" (some 1) 5, CacheOp.set 1 "b" (some 2) 5,
          CacheOp.get 2 "a", CacheOp.set 3 "c" (some 3) 5,
          CacheOp.getOrSetSync 4 "d" (some 4) 5, CacheOp.has 5 "b",
          CacheOp.cleanup 6, CacheOp.del "c", CacheOp.clear]).size ≤ 2 ∧
    ((DataCache.mk0 ℕ 2).set 0 "a" (some 1) 5 |>.set 1 "b" (some 2) 5
      |>.set 2 "b" (some 9) 5).cache.lookup "a" = none := by
  constructor
  · exact (c8_capacity_invariant 2 _ (by norm_num)).1
  · refine (c8_capacity_invariant 2 [] (by norm_num)).2
      ((DataCache.mk0 ℕ 2).set 0 "a" (some 1) 5 |>.set 1 "b" (some 2) 5)
      2 5 "b" "a" { data := some 1, timestamp := 0, ttl := 5 * 1000 } (some 9)
      ?_ ?_ ?_
    · show 2 ≥ 2
      exact le_refl 2
    · rfl
    · intro h
      exact absurd h (by decide)

/-- One `set(key, data, ttl)` call performed at instant `now`. -/
structure SetCall (V : Type) : Type where
  now : ℚ
  key : String
  d : Option V
  ttl : ℚ

/-- A sequence of `set` calls as cache operations. -/
def setOps {V : Type} (calls : List (SetCall V)) : List (CacheOp V) :=
  calls.map fun a => CacheOp.set a.now a.key a.d a.ttl

theorem applyCacheOps_append {V : Type} (c : DataCache V)
    (l1 l2 : List (CacheOp V)) :
    applyCacheOps c (l1 ++ l2) = applyCacheOps (applyCacheOps c l1) l2 :=
  List.foldl_append _ _ _ _

/-- Filling a cache below capacity with distinct fresh keys appends the
entries in call order. -/
theorem applyCacheOps_setOps_fill {V : Type} :
    ∀ (calls : List (SetCall V)) (c : DataCache V),
      c.cache.length + calls.length ≤ c.maxSize →
      (c.cache.map Prod.fst ++ calls.map SetCall.key).Nodup →
      (applyCacheOps c (setOps calls)).cache.map Prod.fst
          = c.cache.map Prod.fst ++ calls.map SetCall.key ∧
      (applyCacheOps c (setOps calls)).maxSize = c.maxSize := by
  intro calls
  induction calls with
  | nil =>
      intro c _ _
      simp [setOps, applyCacheOps]
  | cons a rest ih =>
      intro c hlen hnd
      have hlt : ¬ c.cache.length ≥ c.maxSize := by
        simp only [List.length_cons] at hlen
        omega
      have hkey : a.key ∉ c.cache.map Prod.fst := by
        intro hmem
        simp only [List.map_cons] at hnd
        exact (List.nodup_append.mp hnd).2.2 hmem (List.mem_cons_self _ _)
      have hfresh : c.cache.lookup a.key = none :=
        lookup_eq_none_of_not_mem_keys a.key c.cache hkey
      have hset : (c.set a.now a.key a.d a.ttl).cache
          = c.cache ++ [(a.key, { data := a.d, timestamp := a.now, ttl := a.ttl * 1000 })] := by
        simp only [DataCache.set, if_neg hlt]
        exact mapSet_of_lookup_none _ _ _ hfresh
      have hmax := DataCache.set_maxSize c a.now a.key a.d a.ttl
      have h1 : (c.set a.now a.key a.d a.ttl).cache.length + rest.length
          ≤ (c.set a.now a.key a.d a.ttl).maxSize := by
        rw [hset, hmax]
        simp only [List.length_append, List.length_singleton]
        simp only [List.length_cons] at hlen
        omega
      have h2 : ((c.set a.now a.key a.d a.ttl).cache.map Prod.fst
          ++ rest.map SetCall.key).Nodup := by
        rw [hset]
        simp only [List.map_append, List.map_cons, List.map_nil]
        have hre : (c.cache.map Prod.fst ++ [a.key]) ++ rest.map SetCall.key
            = c.cache.map Prod.fst ++ (a.key :: rest.map SetCall.key) := by
          rw [List.append_assoc]
          rfl
        rw [hre]
        simpa using hnd
      have hres := ih (c.set a.now a.key a.d a.ttl) h1 h2
      have happ : applyCacheOps c (setOps (a :: rest))
          = applyCacheOps (c.set a.now a.key a.d a.ttl) (setOps rest) := rfl
      rw [happ]
      constructor
      · rw [hres.1, hset]
        simp only [List.map_append, List.map_cons, List.map_nil,
          List.append_assoc]
        rfl
      · rw [hres.2, hmax]

/-- C4: on an initially empty cache of capacity `C ≥ 1`, `C + 1` sequential
`set` calls with distinct keys (and no reads in between) leave exactly `C`
entries, and the first-inserted key has been evicted (FIFO over insertion
order). -/
theorem c4_fifo_capacity_eviction {V : Type} (C : ℕ) (calls : List (SetCall V))
    (a0 : SetCall V) (hC : 1 ≤ C) (hlen : calls.length = C + 1)
    (hnd : (calls.map SetCall.key).Nodup) (hhead : calls.head? = some a0) :
    (applyCacheOps (DataCache.mk0 V C) (setOps calls)).size = C ∧
    (applyCacheOps (DataCache.mk0 V C) (setOps calls)).cache.lookup a0.key
      = none := by
  have hne : calls ≠ [] := by
    intro h
    rw [h] at hlen
    simp at hlen
  obtain ⟨front, last, hsplit⟩ : ∃ front last, calls = front ++ [last] :=
    ⟨calls.dropLast, calls.getLast hne, (List.dropLast_append_getLast hne).symm⟩
  subst hsplit
  have hflen : front.length = C := by
    simp only [List.length_append, List.length_singleton] at hlen
    omega
  have hfront_ne : front ≠ [] := by
    intro h
    rw [h] at hflen
    simp at hflen
    omega
  have hkeys : (front.map SetCall.key ++ [last.key]).Nodup := by
    simpa using hnd
  have hfront_nd : (front.map SetCall.key).Nodup :=
    (List.nodup_append.mp hkeys).1
  have hdisj := (List.nodup_append.mp hkeys).2.2
  have hlast_not_mem : last.key ∉ front.map SetCall.key := by
    intro hmem
    exact hdisj hmem (List.mem_singleton.mpr rfl)
  -- fill the first C calls
  have hfill := applyCacheOps_setOps_fill front (DataCache.mk0 V C)
    (by simp [DataCache.mk0]; omega) (by simpa [DataCache.mk0] using hfront_nd)
  set c1 := applyCacheOps (DataCache.mk0 V C) (setOps front) with hc1
  have hc1keys : c1.cache.map Prod.fst = front.map SetCall.key := by
    simpa [DataCache.mk0] using hfill.1
  have hc1max : c1.maxSize = C := by simpa [DataCache.mk0] using hfill.2
  have hc1len : c1.cache.length = C := by
    have := congrArg List.length hc1keys
    simpa [hflen] using this
  -- the head of calls is the head of front
  have ha0 : front.head? = some a0 := by
    cases front with
    | nil => exact absurd rfl hfront_ne
    | cons f fs => simpa using hhead
  -- the first key of c1's store is a0.key
  obtain ⟨p, t, hcache⟩ : ∃ p t, c1.cache = p :: t := by
    cases hc : c1.cache with
    | nil =>
        rw [hc] at hc1len
        simp at hc1len
        omega
    | cons p t => exact ⟨p, t, rfl⟩
  have hp1 : p.1 = a0.key := by
    have := hc1keys
    rw [hcache] at this
    cases front with
    | nil => exact absurd rfl hfront_ne
    | cons f fs =>
        simp only [List.map_cons, List.cons.injEq] at this
        have hf : f = a0 := by
          simpa using ha0
        rw [← hf]
        exact this.1
  have ha0_not_t : a0.key ∉ t.map Prod.fst := by
    have hnd1 : (c1.cache.map Prod.fst).Nodup := by
      rw [hc1keys]; exact hfront_nd
    rw [hcache, List.map_cons, hp1] at hnd1
    exact (List.nodup_cons.mp hnd1).1
  have ha0_mem : a0.key ∈ front.map SetCall.key := by
    rw [← hc1keys, hcache, List.map_cons, hp1]
    exact List.mem_cons_self _ _
  have ha0_ne_last : a0.key ≠ last.key := by
    intro h
    rw [← h] at hlast_not_mem
    exact hlast_not_mem ha0_mem
  -- the final set call evicts a0.key
  have hstep : applyCacheOps (DataCache.mk0 V C) (setOps (front ++ [last]))
      = c1.set last.now last.key last.d last.ttl := by
    have : setOps (front ++ [last]) = setOps front ++ setOps [last] := by
      simp [setOps]
    rw [this, applyCacheOps_append, ← hc1]
    rfl
  have hge : c1.cache.length ≥ c1.maxSize := by omega
  have hp : p = (a0.key, p.2) := by
    rw [← hp1]
  have hhd : c1.cache.head? = some (a0.key, p.2) := by
    rw [hcache, List.head?_cons]
    exact congrArg some hp
  have hdel : mapDelete c1.cache a0.key = t := by
    rw [hcache, hp, mapDelete_cons_self]
    exact mapDelete_of_not_mem_keys t a0.key ha0_not_t
  have hsetc : (c1.set last.now last.key last.d last.ttl).cache
      = mapSet t last.key
          { data := last.d, timestamp := last.now, ttl := last.ttl * 1000 } := by
    simp only [DataCache.set, if_pos hge, hhd]
    rw [hdel]
  have hlast_not_t : last.key ∉ t.map Prod.fst := by
    intro hmem
    apply hlast_not_mem
    rw [← hc1keys, hcache, List.map_cons]
    exact List.mem_cons_of_mem _ hmem
  have hmapset : mapSet t last.key
      { data := last.d, timestamp := last.now, ttl := last.ttl * 1000 }
      = t ++ [(last.key,
          { data := last.d, timestamp := last.now, ttl := last.ttl * 1000 })] :=
    mapSet_of_lookup_none t last.key _
      (lookup_eq_none_of_not_mem_keys last.key t hlast_not_t)
  have htlen : t.length + 1 = C := by
    rw [hcache] at hc1len
    simpa using hc1len
  constructor
  · rw [DataCache.size, hstep, hsetc, hmapset]
    simp only [List.length_append, List.length_singleton]
    omega
  · rw [hstep, hsetc]
    rw [mapSet_lookup_ne last.key a0.key _ ha0_ne_last]
    apply lookup_eq_none_of_not_mem_keys
    exact ha0_not_t

/-- Witness for C4: capacity 2, three distinct keys. -/
theorem c4_fifo_capacity_eviction_witness :
    (applyCacheOps (DataCache.mk0 ℕ 2)
        (setOps [⟨0, "a", some 1, 5⟩, ⟨1, "b", some 2, 5⟩,
          ⟨2, "c", some 3, 5⟩])).size = 2 ∧
    (applyCacheOps (DataCache.mk0 ℕ 2)
        (setOps [⟨0, "a", some 1, 5⟩, ⟨1, "b", some 2, 5⟩,
          ⟨2, "c", some 3, 5⟩])).cache.lookup
      (SetCall.key ⟨0, "a", some 1, 5⟩) = none :=
  c4_fifo_capacity_eviction 2
    [⟨0, "a", some 1, 5⟩, ⟨1, "b", some 2, 5⟩, ⟨2, "c", some 3, 5⟩]
    ⟨0, "a", some 1, 5⟩ (by norm_num) rfl (by decide) rfl

/-!
The `WebWorkerManager` of `webWorker.ts`.  Its mutable state during one turn
of the event loop is the `pendingMessages` map, here the insertion-ordered
list of pending correlation ids.  The events that touch it are: registering a
fresh id in `sendMessage`, an inbound worker message (`INITIALIZED`,
`SUCCESS` or `ERROR` with an id), and a request timeout firing.
-/

/-- An event touching the pending-request map. -/
inductive WorkerEvent : Type
  | initialized
  | send (id : ℕ)
  | response (id : ℕ) (ok : Bool)
  | timeout (id : ℕ)

/-- A promise settlement produced by an event. -/
inductive WorkerSettlement : Type
  | resolved (id : ℕ)
  | rejected (id : ℕ)
  | timedOut (id : ℕ)
deriving DecidableEq

/-- The id a settlement settles. -/
def WorkerSettlement.sid : WorkerSettlement → ℕ
  | WorkerSettlement.resolved id => id
  | WorkerSettlement.rejected id => id
  | WorkerSettlement.timedOut id => id

/-- One step of the manager: `handleMessage` drops `INITIALIZED`, looks an
inbound id up in the pending map and, when absent, logs and drops the
message; when present it removes the entry and resolves (`SUCCESS`) or
rejects (`ERROR`).  `send` registers a fresh pending entry.  A firing
timeout removes the entry, when still pending, and rejects with a timeout
error; otherwise it does nothing. -/
def handleWorkerEvent (pending : List ℕ) :
    WorkerEvent → List ℕ × Option WorkerSettlement
  | WorkerEvent.initialized => (pending, none)
  | WorkerEvent.send id => (pending ++ [id], none)
  | WorkerEvent.response id ok =>
      if id ∈ pending then
        (pending.erase id,
          some (if ok then WorkerSettlement.resolved id
            else WorkerSettlement.rejected id))
      else (pending, none)
  | WorkerEvent.timeout id =>
      if id ∈ pending then (pending.erase id, some (WorkerSettlement.timedOut id))
      else (pending, none)

/-- Running a whole event sequence, collecting every settlement. -/
def runWorkerEvents (pending : List ℕ) :
    List WorkerEvent → List ℕ × List WorkerSettlement
  | [] => (pending, [])
  | e :: es =>
      let step := handleWorkerEvent pending e
      let rest := runWorkerEvents step.1 es
      (rest.1, step.2.toList ++ rest.2)

/-- How many times the event list sends the id. -/
def sendCount (evts : List WorkerEvent) (id : ℕ) : ℕ :=
  evts.countP fun e =>
    match e with
    | WorkerEvent.send i => decide (i = id)
    | _ => false

/-- How many settlements of the id a settlement list holds. -/
def settleCount (ss : List WorkerSettlement) (id : ℕ) : ℕ :=
  ss.countP fun s => decide (s.sid = id)

theorem settleCount_cons (s : WorkerSettlement) (ss : List WorkerSettlement)
    (id : ℕ) :
    settleCount (s :: ss) id
      = (if s.sid = id then 1 else 0) + settleCount ss id := by
  simp only [settleCount, List.countP_cons]
  by_cases h : s.sid = id
  · simp [h, Nat.add_comm]
  · simp [h]

theorem sendCount_cons_send (i : ℕ) (es : List WorkerEvent) (id : ℕ) :
    sendCount (WorkerEvent.send i :: es) id
      = sendCount es id + (if i = id then 1 else 0) := by
  simp only [sendCount, List.countP_cons]
  by_cases h : i = id <;> simp [h]

theorem sendCount_cons_initialized (es : List WorkerEvent) (id : ℕ) :
    sendCount (WorkerEvent.initialized :: es) id = sendCount es id := by
  simp [sendCount, List.countP_cons]

theorem sendCount_cons_response (i : ℕ) (ok : Bool) (es : List WorkerEvent)
    (id : ℕ) :
    sendCount (WorkerEvent.response i ok :: es) id = sendCount es id := by
  simp [sendCount, List.countP_cons]

theorem sendCount_cons_timeout (i : ℕ) (es : List WorkerEvent) (id : ℕ) :
    sendCount (WorkerEvent.timeout i :: es) id = sendCount es id := by
  simp [sendCount, List.countP_cons]

theorem runWorkerEvents_cons (pending : List ℕ) (e : WorkerEvent)
    (es : List WorkerEvent) :
    runWorkerEvents pending (e :: es)
      = ((runWorkerEvents (handleWorkerEvent pending e).1 es).1,
        (handleWorkerEvent pending e).2.toList
          ++ (runWorkerEvents (handleWorkerEvent pending e).1 es).2) := rfl

theorem handleWorkerEvent_response_mem (pending : List ℕ) (i : ℕ) (ok : Bool)
    (h : i ∈ pending) :
    handleWorkerEvent pending (WorkerEvent.response i ok)
      = (pending.erase i,
        some (if ok then WorkerSettlement.resolved i
          else WorkerSettlement.rejected i)) := by
  simp only [handleWorkerEvent, if_pos h]

theorem handleWorkerEvent_response_not_mem (pending : List ℕ) (i : ℕ)
    (ok : Bool) (h : i ∉ pending) :
    handleWorkerEvent pending (WorkerEvent.response i ok) = (pending, none) := by
  simp only [handleWorkerEvent, if_neg h]

theorem handleWorkerEvent_timeout_mem (pending : List ℕ) (i : ℕ)
    (h : i ∈ pending) :
    handleWorkerEvent pending (WorkerEvent.timeout i)
      = (pending.erase i, some (WorkerSettlement.timedOut i)) := by
  simp only [handleWorkerEvent, if_pos h]

theorem handleWorkerEvent_timeout_not_mem (pending : List ℕ) (i : ℕ)
    (h : i ∉ pending) :
    handleWorkerEvent pending (WorkerEvent.timeout i) = (pending, none) := by
  simp only [handleWorkerEvent, if_neg h]

/-- Conservation: the pending multiplicity of an id plus its settlements
equals its initial multiplicity plus the number of sends. -/
theorem runWorkerEvents_conservation (id : ℕ) :
    ∀ (evts : List WorkerEvent) (pending : List ℕ),
      (runWorkerEvents pending evts).1.count id
          + settleCount (runWorkerEvents pending evts).2 id
        = pending.count id + sendCount evts id := by
  intro evts
  induction evts with
  | nil => intro pending; simp [runWorkerEvents, settleCount, sendCount]
  | cons e es ih =>
      intro pending
      cases e with
      | initialized =>
          rw [runWorkerEvents_cons, sendCount_cons_initialized]
          simpa [handleWorkerEvent] using ih pending
      | send i =>
          rw [runWorkerEvents_cons, sendCount_cons_send]
          have hthis := ih (pending ++ [i])
          have hcnt : (pending ++ [i]).count id
              = pending.count id + (if i = id then 1 else 0) := by
            by_cases h : i = id
            · simp [List.count_append, h]
            · have h' : id ≠ i := fun hh => h hh.symm
              simp [List.count_append, List.count_singleton, h, h']
          simp only [handleWorkerEvent, Option.toList_none, List.nil_append]
          rw [hcnt] at hthis
          omega
      | response i ok =>
          rw [runWorkerEvents_cons, sendCount_cons_response]
          by_cases hmem : i ∈ pending
          · rw [handleWorkerEvent_response_mem pending i ok hmem]
            have hthis := ih (pending.erase i)
            simp only [Option.toList_some, List.singleton_append,
              settleCount_cons]
            have hsid : (if ok then WorkerSettlement.resolved i
                else WorkerSettlement.rejected i).sid = i := by
              cases ok <;> rfl
            rw [hsid]
            by_cases hi : i = id
            · subst hi
              have herase := List.count_erase_self i pending
              have hpos := List.count_pos_iff.mpr hmem
              rw [if_pos rfl]
              omega
            · have herase := List.count_erase_of_ne (Ne.symm hi) pending
              rw [if_neg hi]
              omega
          · rw [handleWorkerEvent_response_not_mem pending i ok hmem]
            simpa using ih pending
      | timeout i =>
          rw [runWorkerEvents_cons, sendCount_cons_timeout]
          by_cases hmem : i ∈ pending
          · rw [handleWorkerEvent_timeout_mem pending i hmem]
            have hthis := ih (pending.erase i)
            simp only [Option.toList_some, List.singleton_append,
              settleCount_cons, WorkerSettlement.sid]
            by_cases hi : i = id
            · subst hi
              have herase := List.count_erase_self i pending
              have hpos := List.count_pos_iff.mpr hmem
              rw [if_pos rfl]
              omega
            · have herase := List.count_erase_of_ne (Ne.symm hi) pending
              rw [if_neg hi]
              omega
          · rw [handleWorkerEvent_timeout_not_mem pending i hmem]
            simpa using ih pending

/-- C6: in the Transform Offload Manager, (a) an inbound response whose id has
no pending entry (already resolved, already timed out, or never issued)
leaves the pending map unchanged and settles nothing — so a late response
after a timeout has no effect; (b) a firing timeout whose id is still
pending removes the entry and rejects with a timeout error; (c) along any
event sequence that issues each id at most once (as `sendMessage`'s
monotonically increasing ids guarantee), each id settles at most once. -/
theorem c6_at_most_once_settlement :
    (∀ (pending : List ℕ) (i : ℕ) (ok : Bool), i ∉ pending →
      handleWorkerEvent pending (WorkerEvent.response i ok) = (pending, none)) ∧
    (∀ (pending : List ℕ) (i : ℕ), i ∈ pending →
      handleWorkerEvent pending (WorkerEvent.timeout i)
        = (pending.erase i, some (WorkerSettlement.timedOut i))) ∧
    (∀ (evts : List WorkerEvent) (i : ℕ), sendCount evts i ≤ 1 →
      settleCount (runWorkerEvents [] evts).2 i ≤ 1) := by
  refine ⟨handleWorkerEvent_response_not_mem, handleWorkerEvent_timeout_mem,
    fun evts i h => ?_⟩
  have hcons := runWorkerEvents_conservation i evts []
  simp only [List.count_nil] at hcons
  omega

/-- Witness for C6: a response for an unknown id is dropped; a pending
timeout removes and rejects; the trace send-timeout-late-response settles
exactly once. -/
theorem c6_at_most_once_settlement_witness :
    handleWorkerEvent [3] (WorkerEvent.response 5 true) = ([3], none) ∧
    handleWorkerEvent [3] (WorkerEvent.timeout 3)
      = (([3] : List ℕ).erase 3, some (WorkerSettlement.timedOut 3)) ∧
    settleCount (runWorkerEvents []
        [WorkerEvent.send 1, WorkerEvent.timeout 1,
          WorkerEvent.response 1 true]).2 1 ≤ 1 :=
  ⟨c6_at_most_once_settlement.1 [3] 5 true (by decide),
    c6_at_most_once_settlement.2.1 [3] 3 (by decide),
    c6_at_most_once_settlement.2.2
      [WorkerEvent.send 1, WorkerEvent.timeout 1, WorkerEvent.response 1 true]
      1 (by decide)⟩
